import Mathlib

/-!
Verification of the sssom-py core: a shallow embedding of `sssom/context.py`,
`sssom/datamodel_util.py`, and the behaviour pinned down by `tests/test_utils.py`.

Python dicts are modelled as association lists (`PMap`) with dict-assignment
semantics (`pmInsert`: update in place if the key is present, append otherwise)
and first-match lookup (`pmLookup`).  The JSON-LD `@context` objects consumed by
`context.py` are modelled as association lists of `CtxVal` (a literal URI string,
a JSON object carrying optional `@id` / `@prefix` members, or any other JSON
value).  Logging warnings are made visible as returned lists of triples.
-/

/-- A Python dict from CURIE prefixes to namespace URIs, as an association list
with unique-key discipline maintained by `pmInsert`. -/
abbrev PMap := List (String × String)

/-- First-match association-list lookup, the model of `d[k]` / `k in d`. -/
def pmLookup (k : String) : PMap → Option String
  | [] => none
  | (k1, v) :: rest => if k1 = k then some v else pmLookup k rest

/-- The key list of a prefix map, in insertion order. -/
def pmKeys (pm : PMap) : List String := pm.map Prod.fst

/-- Python dict assignment `d[k] = v`: update the value in place when the key is
already bound (keeping its position), otherwise append the new binding. -/
def pmInsert (k v : String) : PMap → PMap
  | [] => [(k, v)]
  | (k1, v1) :: rest => if k1 = k then (k, v) :: rest else (k1, v1) :: pmInsert k v rest

/-- A value of a JSON-LD context entry as `context.py` inspects it: a literal
string, a JSON object (with the value of its `@id` member when present, and the
truthiness of its `@prefix` member when present), or any other JSON value. -/
inductive CtxVal where
  | str : String → CtxVal
  | obj : Option String → Option Bool → CtxVal
  | other : CtxVal
deriving DecidableEq

/-- A parsed JSON-LD `@context` object: keys with their values, unique keys. -/
abbrev Ctx := List (String × CtxVal)

/-- The reserved prefix list from `context.py` line 14. -/
def SSSOM_BUILT_IN_PREFIXES : List String := ["sssom", "owl", "rdf", "rdfs", "skos"]

/-- The loop of `get_built_in_prefix_map` (`context.py` lines 43-48): keep a
context entry when its key is reserved and its value is a string. -/
def builtinLoop : Ctx → PMap → PMap
  | [], pm => pm
  | (key, v) :: rest, pm =>
    if key ∈ SSSOM_BUILT_IN_PREFIXES then
      match v with
      | CtxVal.str s => builtinLoop rest (pmInsert key s pm)
      | _ => builtinLoop rest pm
    else builtinLoop rest pm

/-- Embedding of `get_built_in_prefix_map` (`context.py` lines 35-49), with the
internal JSON-LD context passed explicitly (it is read from the auto-generated
`internal_context.py`, which is outside the visible sources). -/
def get_built_in_prefix_map (ctx : Ctx) : PMap := builtinLoop ctx []

/-- The loop of `add_built_in_prefixes_to_prefix_map` (`context.py` lines 66-72):
for each built-in binding, insert it when its key is absent from the user map,
and record a warning triple (prefix, user value, default value) when the key is
present with a different value. -/
def addLoop : PMap → PMap → List (String × String × String) →
    PMap × List (String × String × String)
  | [], pm, ws => (pm, ws)
  | (k, v) :: rest, pm, ws =>
    match pmLookup k pm with
    | none => addLoop rest (pmInsert k v pm) ws
    | some uv => if v = uv then addLoop rest pm ws else addLoop rest pm (ws ++ [(k, uv, v)])

/-- Embedding of `add_built_in_prefixes_to_prefix_map` (`context.py` lines
52-73).  The first component is the returned map; the second is the list of
warnings emitted by `logging.warning`, each naming the prefix, the user-supplied
value that is kept, and the overridden default. -/
def add_built_in_prefixes_to_prefix_map (ctx : Ctx) (prefix_map : Option PMap) :
    PMap × List (String × String × String) :=
  let builtinmap := get_built_in_prefix_map ctx
  match prefix_map with
  | none => (builtinmap, [])
  | some m => if m = [] then (builtinmap, []) else addLoop builtinmap m []

/-- The state of the caller's dict after `add_built_in_prefixes_to_prefix_map`
returns: the loop body `prefix_map[k] = v` writes into the dict object that the
caller passed, so when a non-empty map is passed the caller's object afterwards
holds the function's result; when `None` or an empty dict is passed the branch
only rebinds the local name and the caller's object is never written. -/
def add_built_in_prefixes_input_after (ctx : Ctx) (prefix_map : Option PMap) :
    Option PMap :=
  match prefix_map with
  | none => none
  | some m =>
    if m = [] then some m else some (add_built_in_prefixes_to_prefix_map ctx (some m)).1

/-- The first loop of `get_default_metadata` (`context.py` lines 87-94): a string
value is kept; a JSON object contributes its `@id` when it carries both an `@id`
and a truthy `@prefix` member; everything else is skipped. -/
def internalLoop : Ctx → PMap → PMap
  | [], pm => pm
  | (key, v) :: rest, pm =>
    match v with
    | CtxVal.str s => internalLoop rest (pmInsert key s pm)
    | CtxVal.obj oid opfx =>
      match oid, opfx with
      | some i, some b => if b then internalLoop rest (pmInsert key i pm) else internalLoop rest pm
      | _, _ => internalLoop rest pm
    | CtxVal.other => internalLoop rest pm

/-- The second loop of `get_default_metadata` (`context.py` lines 95-104): a
string value of the external context is inserted when its key is absent, and a
warning triple (key, existing value, external value) is recorded when the key is
present with a different value; the existing value is kept. -/
def externalLoop : Ctx → PMap → List (String × String × String) →
    PMap × List (String × String × String)
  | [], pm, ws => (pm, ws)
  | (key, v) :: rest, pm, ws =>
    match v with
    | CtxVal.str s =>
      match pmLookup key pm with
      | none => externalLoop rest (pmInsert key s pm) ws
      | some u =>
        if u = s then externalLoop rest pm ws else externalLoop rest pm (ws ++ [(key, u, s)])
    | _ => externalLoop rest pm ws

/-- The `Metadata` named tuple from `sssom/typehints.py` as `get_default_metadata`
returns it: a prefix map and a header-metadata mapping. -/
structure Metadata where
  prefix_map : PMap
  metadata : List (String × String)
deriving DecidableEq

/-- Embedding of `get_default_metadata` (`context.py` lines 76-105), with the two
JSON-LD contexts passed explicitly.  The second component is the list of
warnings emitted for conflicting keys of the external context. -/
def get_default_metadata (ctx ctx_external : Ctx) :
    Metadata × List (String × String × String) :=
  let pm := internalLoop ctx []
  (⟨(externalLoop ctx_external pm []).1, []⟩, (externalLoop ctx_external pm []).2)

/-- Modelled from the spec: the auto-generated internal JSON-LD context
(`internal_context.py`, imported by `context.py` but absent from the visible
sources) binds each of the five reserved prefixes to its canonical namespace URI
as a literal string (spec section 3, BuiltInPrefixSet). -/
def sssomInternalContextModel : Ctx :=
  [("sssom", CtxVal.str "https://w3id.org/sssom/"),
   ("owl", CtxVal.str "http://www.w3.org/2002/07/owl#"),
   ("rdf", CtxVal.str "http://www.w3.org/1999/02/22-rdf-syntax-ns#"),
   ("rdfs", CtxVal.str "http://www.w3.org/2000/01/rdf-schema#"),
   ("skos", CtxVal.str "http://www.w3.org/2004/02/skos/core#"),
   ("mappings", CtxVal.obj (some "http://w3id.org/sssom/mappings") none)]

theorem pmLookup_eq_none_iff (k : String) (pm : PMap) :
    pmLookup k pm = none ↔ k ∉ pmKeys pm := by
  induction pm with
  | nil => simp [pmLookup, pmKeys]
  | cons kv rest ih =>
    obtain ⟨k1, v⟩ := kv
    by_cases h : k1 = k
    · subst h
      simp [pmLookup, pmKeys]
    · simp [pmLookup, pmKeys, h, ih]
      intro hk
      exact fun hkk => h hkk.symm

theorem pmLookup_mem {k v : String} {pm : PMap} (h : pmLookup k pm = some v) :
    (k, v) ∈ pm := by
  induction pm with
  | nil => simp [pmLookup] at h
  | cons kv rest ih =>
    obtain ⟨k1, v1⟩ := kv
    by_cases hk : k1 = k
    · subst hk
      simp [pmLookup] at h
      simp [h]
    · simp [pmLookup, hk] at h
      exact List.mem_cons_of_mem _ (ih h)

theorem pmLookup_pmInsert_self (k v : String) (pm : PMap) :
    pmLookup k (pmInsert k v pm) = some v := by
  induction pm with
  | nil => simp [pmInsert, pmLookup]
  | cons kv rest ih =>
    obtain ⟨k1, v1⟩ := kv
    by_cases h : k1 = k
    · subst h
      simp [pmInsert, pmLookup]
    · simp [pmInsert, pmLookup, h, ih]

theorem pmLookup_pmInsert_ne {k1 k : String} (v : String) (pm : PMap) (h : k1 ≠ k) :
    pmLookup k (pmInsert k1 v pm) = pmLookup k pm := by
  induction pm with
  | nil => simp [pmInsert, pmLookup, h]
  | cons kv rest ih =>
    obtain ⟨k2, v2⟩ := kv
    by_cases h2 : k2 = k1
    · subst h2
      simp [pmInsert, pmLookup, h]
    · simp [pmInsert, pmLookup, h2, ih]

theorem pmInsert_of_lookup_none {k : String} (v : String) {pm : PMap}
    (h : pmLookup k pm = none) : pmInsert k v pm = pm ++ [(k, v)] := by
  induction pm with
  | nil => simp [pmInsert]
  | cons kv rest ih =>
    obtain ⟨k1, v1⟩ := kv
    by_cases hk : k1 = k
    · subst hk
      simp [pmLookup] at h
    · simp [pmLookup, hk] at h
      simp [pmInsert, hk, ih h]

theorem pmKeys_pmInsert (k v : String) (pm : PMap) :
    pmKeys (pmInsert k v pm) =
      if k ∈ pmKeys pm then pmKeys pm else pmKeys pm ++ [k] := by
  induction pm with
  | nil => simp [pmInsert, pmKeys]
  | cons kv rest ih =>
    obtain ⟨k1, v1⟩ := kv
    by_cases h : k1 = k
    · subst h
      simp [pmInsert, pmKeys]
    · have hne : ¬ k = k1 := fun hk => h hk.symm
      simp only [pmInsert]
      rw [if_neg h]
      show k1 :: pmKeys (pmInsert k v rest) = _
      rw [ih]
      by_cases hmem : k ∈ List.map Prod.fst rest
      · simp [pmKeys, hmem, hne]
      · simp [pmKeys, hmem, hne]

theorem pmKeys_pmInsert_nodup (k v : String) {pm : PMap}
    (h : (pmKeys pm).Nodup) : (pmKeys (pmInsert k v pm)).Nodup := by
  rw [pmKeys_pmInsert]
  by_cases hmem : k ∈ pmKeys pm
  · simpa [hmem] using h
  · simp only [hmem, if_false]
    simpa [List.nodup_append] using ⟨h, hmem⟩

theorem builtinLoop_keys_nodup (ctx : Ctx) (pm : PMap) (h : (pmKeys pm).Nodup) :
    (pmKeys (builtinLoop ctx pm)).Nodup := by
  induction ctx generalizing pm with
  | nil => simpa [builtinLoop] using h
  | cons kv rest ih =>
    obtain ⟨key, v⟩ := kv
    by_cases hb : key ∈ SSSOM_BUILT_IN_PREFIXES
    · cases v with
      | str s => simpa [builtinLoop, hb] using ih _ (pmKeys_pmInsert_nodup key s h)
      | obj oid opfx => simpa [builtinLoop, hb] using ih _ h
      | other => simpa [builtinLoop, hb] using ih _ h
    · simpa [builtinLoop, hb] using ih _ h

theorem get_built_in_prefix_map_keys_nodup (ctx : Ctx) :
    (pmKeys (get_built_in_prefix_map ctx)).Nodup :=
  builtinLoop_keys_nodup ctx [] (by simp [pmKeys])

theorem builtinLoop_keys_from {k : String} (ctx : Ctx) (pm : PMap)
    (h : k ∈ pmKeys (builtinLoop ctx pm)) :
    k ∈ pmKeys pm ∨ (k ∈ SSSOM_BUILT_IN_PREFIXES ∧ ∃ s, (k, CtxVal.str s) ∈ ctx) := by
  induction ctx generalizing pm with
  | nil => exact Or.inl (by simpa [builtinLoop] using h)
  | cons kv rest ih =>
    obtain ⟨key, v⟩ := kv
    by_cases hb : key ∈ SSSOM_BUILT_IN_PREFIXES
    · cases v with
      | str s =>
        simp only [builtinLoop, hb, if_true] at h
        rcases ih _ h with hin | ⟨hbi, s2, hs2⟩
        · rw [pmKeys_pmInsert] at hin
          by_cases hmem : k ∈ pmKeys pm
          · exact Or.inl hmem
          · split at hin
            · exact Or.inl hin
            · rcases List.mem_append.mp hin with hin2 | hin2
              · exact Or.inl hin2
              · simp only [List.mem_singleton] at hin2
                subst hin2
                exact Or.inr ⟨hb, s, by simp⟩
        · exact Or.inr ⟨hbi, s2, List.mem_cons_of_mem _ hs2⟩
      | obj oid opfx =>
        simp only [builtinLoop, hb, if_true] at h
        rcases ih _ h with hin | ⟨hbi, s2, hs2⟩
        · exact Or.inl hin
        · exact Or.inr ⟨hbi, s2, List.mem_cons_of_mem _ hs2⟩
      | other =>
        simp only [builtinLoop, hb, if_true] at h
        rcases ih _ h with hin | ⟨hbi, s2, hs2⟩
        · exact Or.inl hin
        · exact Or.inr ⟨hbi, s2, List.mem_cons_of_mem _ hs2⟩
    · simp only [builtinLoop, hb, if_false] at h
      rcases ih _ h with hin | ⟨hbi, s2, hs2⟩
      · exact Or.inl hin
      · exact Or.inr ⟨hbi, s2, List.mem_cons_of_mem _ hs2⟩

theorem addLoop_map_preserve {k u : String} (bl pm : PMap)
    (ws : List (String × String × String)) (h : pmLookup k pm = some u) :
    pmLookup k (addLoop bl pm ws).1 = some u := by
  induction bl generalizing pm ws with
  | nil => simpa [addLoop] using h
  | cons kv rest ih =>
    obtain ⟨k1, v1⟩ := kv
    cases hl : pmLookup k1 pm with
    | none =>
      have hne : k1 ≠ k := by
        intro he
        subst he
        rw [hl] at h
        exact Option.noConfusion h
      simp only [addLoop, hl]
      exact ih _ _ (by rw [pmLookup_pmInsert_ne v1 pm hne]; exact h)
    | some uv =>
      simp only [addLoop, hl]
      by_cases he : v1 = uv
      · simpa [he] using ih pm ws h
      · simpa [he] using ih pm _ h

theorem addLoop_key_total {k v : String} (bl pm : PMap)
    (ws : List (String × String × String)) (h : (k, v) ∈ bl) :
    pmLookup k (addLoop bl pm ws).1 ≠ none := by
  induction bl generalizing pm ws with
  | nil => simp at h
  | cons kv rest ih =>
    obtain ⟨k1, v1⟩ := kv
    rcases List.mem_cons.mp h with hhead | htail
    · have hk : k = k1 := congrArg Prod.fst hhead
      have hv : v = v1 := congrArg Prod.snd hhead
      subst hk
      subst hv
      cases hl : pmLookup k pm with
      | none =>
        simp only [addLoop, hl]
        rw [addLoop_map_preserve rest _ ws (pmLookup_pmInsert_self k v pm)]
        exact Option.noConfusion
      | some uv =>
        simp only [addLoop, hl]
        by_cases he : v = uv
        · rw [if_pos he, addLoop_map_preserve rest pm ws hl]
          exact Option.noConfusion
        · rw [if_neg he, addLoop_map_preserve rest pm _ hl]
          exact Option.noConfusion
    · cases hl : pmLookup k1 pm with
      | none =>
        simp only [addLoop, hl]
        exact ih _ _ htail
      | some uv =>
        simp only [addLoop, hl]
        by_cases he : v1 = uv
        · simpa [he] using ih pm ws htail
        · simpa [he] using ih pm _ htail

theorem addLoop_noop (bl pm : PMap) (ws : List (String × String × String))
    (h : ∀ kv ∈ bl, pmLookup kv.1 pm ≠ none) : (addLoop bl pm ws).1 = pm := by
  induction bl generalizing ws with
  | nil => simp [addLoop]
  | cons kv rest ih =>
    obtain ⟨k1, v1⟩ := kv
    cases hl : pmLookup k1 pm with
    | none => exact absurd hl (h (k1, v1) (List.mem_cons_self _ _))
    | some uv =>
      simp only [addLoop, hl]
      by_cases he : v1 = uv
      · simpa [he] using ih ws (fun kv hkv => h kv (List.mem_cons_of_mem _ hkv))
      · simpa [he] using ih _ (fun kv hkv => h kv (List.mem_cons_of_mem _ hkv))

theorem pmKeys_append (a b : PMap) : pmKeys (a ++ b) = pmKeys a ++ pmKeys b :=
  List.map_append _ _ _

theorem mem_pmKeys_of_mem {kv : String × String} {pm : PMap} (h : kv ∈ pm) :
    kv.1 ∈ pmKeys pm := List.mem_map_of_mem Prod.fst h

theorem addLoop_insert_missing {k v : String} (bl : PMap) :
    (pmKeys bl).Nodup → (k, v) ∈ bl → ∀ pm ws, pmLookup k pm = none →
    pmLookup k (addLoop bl pm ws).1 = some v := by
  induction bl with
  | nil =>
    intro _ hmem
    simp at hmem
  | cons kv rest ih =>
    obtain ⟨k1, v1⟩ := kv
    intro hnd hmem pm ws hnone
    have hnd2 : k1 ∉ pmKeys rest ∧ (pmKeys rest).Nodup := by
      simpa [pmKeys] using hnd
    rcases List.mem_cons.mp hmem with hhead | htail
    · have hk : k = k1 := congrArg Prod.fst hhead
      have hv : v = v1 := congrArg Prod.snd hhead
      subst hk
      subst hv
      simp only [addLoop, hnone]
      exact addLoop_map_preserve rest _ ws (pmLookup_pmInsert_self k v pm)
    · have hk1 : k1 ≠ k := by
        intro he
        subst he
        exact hnd2.1 (mem_pmKeys_of_mem htail)
      cases hl : pmLookup k1 pm with
      | none =>
        simp only [addLoop, hl]
        exact ih hnd2.2 htail _ _ (by rw [pmLookup_pmInsert_ne v1 pm hk1]; exact hnone)
      | some uv =>
        simp only [addLoop, hl]
        by_cases he : v1 = uv
        · simpa [he] using ih hnd2.2 htail pm ws hnone
        · simpa [he] using ih hnd2.2 htail pm _ hnone

theorem addLoop_ws_mono {w : String × String × String} (bl : PMap) :
    ∀ pm ws, w ∈ ws → w ∈ (addLoop bl pm ws).2 := by
  induction bl with
  | nil =>
    intro pm ws h
    simpa [addLoop] using h
  | cons kv rest ih =>
    obtain ⟨k1, v1⟩ := kv
    intro pm ws h
    cases hl : pmLookup k1 pm with
    | none =>
      simp only [addLoop, hl]
      exact ih _ _ h
    | some uv =>
      simp only [addLoop, hl]
      by_cases he : v1 = uv
      · simpa [he] using ih pm ws h
      · simpa [he] using ih pm _ (List.mem_append_left _ h)

theorem addLoop_warn {k v u : String} (bl : PMap) :
    (pmKeys bl).Nodup → (k, v) ∈ bl → ∀ pm ws, pmLookup k pm = some u → u ≠ v →
    (k, u, v) ∈ (addLoop bl pm ws).2 := by
  induction bl with
  | nil =>
    intro _ hmem
    simp at hmem
  | cons kv rest ih =>
    obtain ⟨k1, v1⟩ := kv
    intro hnd hmem pm ws hsome hne
    have hnd2 : k1 ∉ pmKeys rest ∧ (pmKeys rest).Nodup := by
      simpa [pmKeys] using hnd
    rcases List.mem_cons.mp hmem with hhead | htail
    · have hk : k = k1 := congrArg Prod.fst hhead
      have hv : v = v1 := congrArg Prod.snd hhead
      subst hk
      subst hv
      simp only [addLoop, hsome]
      rw [if_neg (fun hvu => hne hvu.symm)]
      exact addLoop_ws_mono rest pm _ (List.mem_append_right _ (List.mem_singleton.mpr rfl))
    · have hk1 : k1 ≠ k := by
        intro he
        subst he
        exact hnd2.1 (mem_pmKeys_of_mem htail)
      cases hl : pmLookup k1 pm with
      | none =>
        simp only [addLoop, hl]
        exact ih hnd2.2 htail _ _ (by rw [pmLookup_pmInsert_ne v1 pm hk1]; exact hsome) hne
      | some uv =>
        simp only [addLoop, hl]
        by_cases he : v1 = uv
        · simpa [he] using ih hnd2.2 htail pm ws hsome hne
        · simpa [he] using ih hnd2.2 htail pm _ hsome hne

theorem addLoop_append (bl : PMap) : ∀ pm ws, ∃ rest,
    (addLoop bl pm ws).1 = pm ++ rest ∧
    ∀ kv ∈ rest, kv.1 ∉ pmKeys pm ∧ kv.1 ∈ pmKeys bl := by
  induction bl with
  | nil =>
    intro pm ws
    exact ⟨[], by simp [addLoop], by simp⟩
  | cons kv rest ih =>
    obtain ⟨k1, v1⟩ := kv
    intro pm ws
    cases hl : pmLookup k1 pm with
    | none =>
      obtain ⟨r2, hr2, hprop⟩ := ih (pmInsert k1 v1 pm) ws
      refine ⟨(k1, v1) :: r2, ?_, ?_⟩
      · simp only [addLoop, hl]
        rw [hr2, pmInsert_of_lookup_none v1 hl]
        simp
      · intro kv2 hkv2
        rcases List.mem_cons.mp hkv2 with hh | ht
        · subst hh
          refine ⟨(pmLookup_eq_none_iff k1 pm).mp hl, ?_⟩
          exact List.mem_cons_self _ _
        · obtain ⟨hnotin, hinbl⟩ := hprop kv2 ht
          refine ⟨?_, List.mem_cons_of_mem _ hinbl⟩
          intro hmem
          apply hnotin
          rw [pmInsert_of_lookup_none v1 hl, pmKeys_append]
          exact List.mem_append_left _ hmem
    | some uv =>
      by_cases he : v1 = uv
      · obtain ⟨r2, hr2, hprop⟩ := ih pm ws
        refine ⟨r2, by simp only [addLoop, hl, if_pos he]; exact hr2, ?_⟩
        intro kv2 h2
        obtain ⟨hn, hb⟩ := hprop kv2 h2
        exact ⟨hn, List.mem_cons_of_mem _ hb⟩
      · obtain ⟨r2, hr2, hprop⟩ := ih pm (ws ++ [(k1, uv, v1)])
        refine ⟨r2, by simp only [addLoop, hl, if_neg he]; exact hr2, ?_⟩
        intro kv2 h2
        obtain ⟨hn, hb⟩ := hprop kv2 h2
        exact ⟨hn, List.mem_cons_of_mem _ hb⟩

theorem reconcile_noop_of_keys_present (ctx : Ctx) (r : PMap)
    (hall : ∀ kv ∈ get_built_in_prefix_map ctx, pmLookup kv.1 r ≠ none)
    (hne : r ≠ []) : (add_built_in_prefixes_to_prefix_map ctx (some r)).1 = r := by
  simp only [add_built_in_prefixes_to_prefix_map, if_neg hne]
  exact addLoop_noop _ r [] hall

/-- C7: reconcile is idempotent.  For every optional prefix map `m` and every
internal context, applying `add_built_in_prefixes_to_prefix_map` to the map
returned by a first application returns that map again, unchanged. -/
theorem reconcile_idempotent (ctx : Ctx) (m : Option PMap) :
    (add_built_in_prefixes_to_prefix_map ctx
        (some (add_built_in_prefixes_to_prefix_map ctx m).1)).1
      = (add_built_in_prefixes_to_prefix_map ctx m).1 := by
  have hBall : ∀ kv ∈ get_built_in_prefix_map ctx,
      pmLookup kv.1 (get_built_in_prefix_map ctx) ≠ none := by
    intro kv hkv h
    exact (pmLookup_eq_none_iff kv.1 _).mp h (mem_pmKeys_of_mem hkv)
  have hBcase : (add_built_in_prefixes_to_prefix_map ctx
      (some (get_built_in_prefix_map ctx))).1 = get_built_in_prefix_map ctx := by
    by_cases hB : get_built_in_prefix_map ctx = []
    · simp [add_built_in_prefixes_to_prefix_map, hB]
    · exact reconcile_noop_of_keys_present ctx _ hBall hB
  match m with
  | none =>
    simpa [add_built_in_prefixes_to_prefix_map] using hBcase
  | some m0 =>
    by_cases hm0 : m0 = []
    · subst hm0
      simpa [add_built_in_prefixes_to_prefix_map] using hBcase
    · simp only [add_built_in_prefixes_to_prefix_map, if_neg hm0]
      obtain ⟨rest, hrest, -⟩ := addLoop_append (get_built_in_prefix_map ctx) m0 []
      have hrne : (addLoop (get_built_in_prefix_map ctx) m0 []).1 ≠ [] := by
        rw [hrest]
        intro hnil
        exact hm0 (List.append_eq_nil.mp hnil).1
      rw [if_neg hrne]
      exact addLoop_noop _ _ [] fun kv hkv => addLoop_key_total _ m0 [] hkv

/-- C1: behaviour of reconcile (`add_built_in_prefixes_to_prefix_map`).  When the
user map is `None` or empty, the result is the built-in map (a fresh copy, with
no warnings).  When the user map is non-empty: every built-in prefix absent from
the user map is bound to its built-in URI in the result; every built-in prefix
present in the user map with a different URI keeps the user-supplied URI and a
warning naming the prefix, the kept value and the overridden default is emitted;
and every non-built-in user binding is preserved. -/
theorem reconcile_builtins_spec (ctx : Ctx) :
    (add_built_in_prefixes_to_prefix_map ctx none).1 = get_built_in_prefix_map ctx ∧
    (add_built_in_prefixes_to_prefix_map ctx (some [])).1 = get_built_in_prefix_map ctx ∧
    ∀ m : PMap, m ≠ [] →
      (∀ k v, pmLookup k (get_built_in_prefix_map ctx) = some v → pmLookup k m = none →
        pmLookup k (add_built_in_prefixes_to_prefix_map ctx (some m)).1 = some v) ∧
      (∀ k u v, pmLookup k (get_built_in_prefix_map ctx) = some v →
        pmLookup k m = some u → u ≠ v →
        pmLookup k (add_built_in_prefixes_to_prefix_map ctx (some m)).1 = some u ∧
          (k, u, v) ∈ (add_built_in_prefixes_to_prefix_map ctx (some m)).2) ∧
      (∀ k u, pmLookup k (get_built_in_prefix_map ctx) = none → pmLookup k m = some u →
        pmLookup k (add_built_in_prefixes_to_prefix_map ctx (some m)).1 = some u) := by
  refine ⟨rfl, by simp [add_built_in_prefixes_to_prefix_map], ?_⟩
  intro m hm
  simp only [add_built_in_prefixes_to_prefix_map, if_neg hm]
  refine ⟨?_, ?_, ?_⟩
  · intro k v hB hnone
    exact addLoop_insert_missing _ (get_built_in_prefix_map_keys_nodup ctx)
      (pmLookup_mem hB) m [] hnone
  · intro k u v hB hsome hne
    refine ⟨addLoop_map_preserve _ m [] hsome, ?_⟩
    exact addLoop_warn _ (get_built_in_prefix_map_keys_nodup ctx)
      (pmLookup_mem hB) m [] hsome hne
  · intro k u _ hsome
    exact addLoop_map_preserve _ m [] hsome

theorem reconcile_builtins_spec_witness :
    pmLookup "owl" (add_built_in_prefixes_to_prefix_map sssomInternalContextModel
        (some [("skos", "http://example.org/skos-alt#"),
               ("foo", "http://example.org/foo#")])).1
      = some "http://www.w3.org/2002/07/owl#" ∧
    pmLookup "skos" (add_built_in_prefixes_to_prefix_map sssomInternalContextModel
        (some [("skos", "http://example.org/skos-alt#"),
               ("foo", "http://example.org/foo#")])).1
      = some "http://example.org/skos-alt#" ∧
    ("skos", "http://example.org/skos-alt#", "http://www.w3.org/2004/02/skos/core#")
      ∈ (add_built_in_prefixes_to_prefix_map sssomInternalContextModel
        (some [("skos", "http://example.org/skos-alt#"),
               ("foo", "http://example.org/foo#")])).2 ∧
    pmLookup "foo" (add_built_in_prefixes_to_prefix_map sssomInternalContextModel
        (some [("skos", "http://example.org/skos-alt#"),
               ("foo", "http://example.org/foo#")])).1
      = some "http://example.org/foo#" := by
  have h := (reconcile_builtins_spec sssomInternalContextModel).2.2
      [("skos", "http://example.org/skos-alt#"), ("foo", "http://example.org/foo#")]
      (by decide)
  refine ⟨h.1 "owl" "http://www.w3.org/2002/07/owl#" (by decide) (by decide), ?_, ?_, ?_⟩
  · exact (h.2.1 "skos" "http://example.org/skos-alt#" "http://www.w3.org/2004/02/skos/core#"
      (by decide) (by decide) (by decide)).1
  · exact (h.2.1 "skos" "http://example.org/skos-alt#" "http://www.w3.org/2004/02/skos/core#"
      (by decide) (by decide) (by decide)).2
  · exact h.2.2 "foo" "http://example.org/foo#" (by decide) (by decide)

/-- C2 counterexample: reconcile does mutate a non-empty input map.  After
calling `add_built_in_prefixes_to_prefix_map` on the singleton user map binding
only `foo`, the caller's dict no longer holds exactly its original single
binding: the loop has written the missing built-in bindings into it. -/
theorem reconcile_mutates_input_cex :
    add_built_in_prefixes_input_after sssomInternalContextModel
        (some [("foo", "http://example.org/foo#")])
      ≠ some [("foo", "http://example.org/foo#")] := by decide

theorem pmLookup_append_of_none {k : String} {a : PMap} (b : PMap)
    (h : pmLookup k a = none) : pmLookup k (a ++ b) = pmLookup k b := by
  induction a with
  | nil => simp
  | cons kv rest ih =>
    obtain ⟨k1, v1⟩ := kv
    by_cases hk : k1 = k
    · subst hk
      simp [pmLookup] at h
    · simp only [pmLookup, hk, if_false] at h ⊢
      exact ih h

/-- C2 amended: the call can mutate a non-empty input map in place.  After the
call the input holds its original bindings unchanged and in order, followed by
new bindings only for built-in prefixes it lacked and among them a binding for
each built-in prefix it lacked; it is left exactly unchanged when it already
contains every built-in key, an empty input dict is never written, and a `None`
input stays `None`. -/
theorem reconcile_input_after_call (ctx : Ctx) (m : PMap) :
    (∃ rest, add_built_in_prefixes_input_after ctx (some m) = some (m ++ rest) ∧
      (∀ kv ∈ rest, kv.1 ∉ pmKeys m ∧ kv.1 ∈ pmKeys (get_built_in_prefix_map ctx)) ∧
      (m ≠ [] → ∀ kv ∈ get_built_in_prefix_map ctx, kv.1 ∉ pmKeys m → kv ∈ rest)) ∧
    ((∀ k ∈ pmKeys (get_built_in_prefix_map ctx), k ∈ pmKeys m) →
      add_built_in_prefixes_input_after ctx (some m) = some m) ∧
    add_built_in_prefixes_input_after ctx (some []) = some [] ∧
    add_built_in_prefixes_input_after ctx none = none := by
  refine ⟨?_, ?_, by simp [add_built_in_prefixes_input_after], rfl⟩
  · by_cases hm : m = []
    · subst hm
      exact ⟨[], by simp [add_built_in_prefixes_input_after], by simp,
        fun h => absurd rfl h⟩
    · simp only [add_built_in_prefixes_input_after, if_neg hm,
        add_built_in_prefixes_to_prefix_map]
      obtain ⟨rest, hr, hp⟩ := addLoop_append (get_built_in_prefix_map ctx) m []
      refine ⟨rest, by rw [hr], hp, ?_⟩
      intro _ kv hkv hnot
      have hnone : pmLookup kv.1 m = none := (pmLookup_eq_none_iff kv.1 m).mpr hnot
      have hv : pmLookup kv.1 (addLoop (get_built_in_prefix_map ctx) m []).1 = some kv.2 :=
        addLoop_insert_missing _ (get_built_in_prefix_map_keys_nodup ctx) hkv m [] hnone
      rw [hr, pmLookup_append_of_none rest hnone] at hv
      exact pmLookup_mem hv
  · intro hall
    by_cases hm : m = []
    · subst hm
      simp [add_built_in_prefixes_input_after]
    · simp only [add_built_in_prefixes_input_after, if_neg hm]
      exact congrArg some (reconcile_noop_of_keys_present ctx m
        (fun kv hkv h => (pmLookup_eq_none_iff kv.1 m).mp h
          (hall kv.1 (mem_pmKeys_of_mem hkv))) hm)

theorem reconcile_input_after_call_witness :
    add_built_in_prefixes_input_after sssomInternalContextModel
        (some [("sssom", "https://w3id.org/sssom/"),
               ("owl", "http://www.w3.org/2002/07/owl#"),
               ("rdf", "http://www.w3.org/1999/02/22-rdf-syntax-ns#"),
               ("rdfs", "http://www.w3.org/2000/01/rdf-schema#"),
               ("skos", "http://example.org/skos-alt#")])
      = some [("sssom", "https://w3id.org/sssom/"),
              ("owl", "http://www.w3.org/2002/07/owl#"),
              ("rdf", "http://www.w3.org/1999/02/22-rdf-syntax-ns#"),
              ("rdfs", "http://www.w3.org/2000/01/rdf-schema#"),
              ("skos", "http://example.org/skos-alt#")] :=
  (reconcile_input_after_call sssomInternalContextModel _).2.1 (by decide)

/-- C9: `get_built_in_prefix_map` only ever binds keys drawn from the five
reserved names, every binding it returns comes from a context entry whose value
is a literal string, and a reserved prefix whose context entry is a JSON object
is silently omitted, so the result need not bind all five built-ins (shown on a
context whose `owl` entry is an object). -/
theorem get_built_in_prefix_map_subset :
    (∀ ctx k, k ∈ pmKeys (get_built_in_prefix_map ctx) → k ∈ SSSOM_BUILT_IN_PREFIXES) ∧
    (∀ ctx k, k ∈ pmKeys (get_built_in_prefix_map ctx) → ∃ s, (k, CtxVal.str s) ∈ ctx) ∧
    pmKeys (get_built_in_prefix_map
      [("sssom", CtxVal.str "https://w3id.org/sssom/"),
       ("owl", CtxVal.obj (some "http://www.w3.org/2002/07/owl#") (some true)),
       ("rdf", CtxVal.str "http://www.w3.org/1999/02/22-rdf-syntax-ns#"),
       ("rdfs", CtxVal.str "http://www.w3.org/2000/01/rdf-schema#"),
       ("skos", CtxVal.str "http://www.w3.org/2004/02/skos/core#")])
      = ["sssom", "rdf", "rdfs", "skos"] := by
  refine ⟨?_, ?_, by decide⟩
  · intro ctx k h
    rcases builtinLoop_keys_from ctx [] h with hin | ⟨hb, -⟩
    · simp [pmKeys] at hin
    · exact hb
  · intro ctx k h
    rcases builtinLoop_keys_from ctx [] h with hin | ⟨-, s, hs⟩
    · simp [pmKeys] at hin
    · exact ⟨s, hs⟩

theorem get_built_in_prefix_map_subset_witness :
    "skos" ∈ pmKeys (get_built_in_prefix_map sssomInternalContextModel) ∧
    "skos" ∈ SSSOM_BUILT_IN_PREFIXES ∧
    ∃ s, ("skos", CtxVal.str s) ∈ sssomInternalContextModel :=
  ⟨by decide,
   get_built_in_prefix_map_subset.1 sssomInternalContextModel "skos" (by decide),
   get_built_in_prefix_map_subset.2.1 sssomInternalContextModel "skos" (by decide)⟩

/-- C10: whatever the two contexts contain, `get_default_metadata` returns a
`Metadata` whose `metadata` mapping is the empty mapping; only the `prefix_map`
component is ever populated. -/
theorem get_default_metadata_metadata_empty (ctx ctx_external : Ctx) :
    ((get_default_metadata ctx ctx_external).1).metadata = [] := rfl

theorem externalLoop_preserve {k u : String} (ext : Ctx) :
    ∀ pm ws, pmLookup k pm = some u → pmLookup k (externalLoop ext pm ws).1 = some u := by
  induction ext with
  | nil =>
    intro pm ws h
    simpa [externalLoop] using h
  | cons kv rest ih =>
    obtain ⟨k1, v⟩ := kv
    intro pm ws h
    cases v with
    | str s =>
      cases hl : pmLookup k1 pm with
      | none =>
        have hne : k1 ≠ k := by
          intro he
          rw [he, h] at hl
          exact Option.noConfusion hl
        simp only [externalLoop, hl]
        exact ih _ _ (by rw [pmLookup_pmInsert_ne s pm hne]; exact h)
      | some u1 =>
        simp only [externalLoop, hl]
        by_cases he : u1 = s
        · simpa [he] using ih pm ws h
        · simpa [he] using ih pm _ h
    | obj oid opfx =>
      simp only [externalLoop]
      exact ih pm ws h
    | other =>
      simp only [externalLoop]
      exact ih pm ws h

theorem externalLoop_ws_mono {w : String × String × String} (ext : Ctx) :
    ∀ pm ws, w ∈ ws → w ∈ (externalLoop ext pm ws).2 := by
  induction ext with
  | nil =>
    intro pm ws h
    simpa [externalLoop] using h
  | cons kv rest ih =>
    obtain ⟨k1, v⟩ := kv
    intro pm ws h
    cases v with
    | str s =>
      cases hl : pmLookup k1 pm with
      | none =>
        simp only [externalLoop, hl]
        exact ih _ _ h
      | some u1 =>
        simp only [externalLoop, hl]
        by_cases he : u1 = s
        · simpa [he] using ih pm ws h
        · simpa [he] using ih pm _ (List.mem_append_left _ h)
    | obj oid opfx =>
      simp only [externalLoop]
      exact ih pm ws h
    | other =>
      simp only [externalLoop]
      exact ih pm ws h

theorem externalLoop_warn {k u s : String} (ext : Ctx) :
    ∀ pm ws, pmLookup k pm = some u → (k, CtxVal.str s) ∈ ext → u ≠ s →
    (k, u, s) ∈ (externalLoop ext pm ws).2 := by
  induction ext with
  | nil =>
    intro pm ws _ hmem
    simp at hmem
  | cons kv rest ih =>
    obtain ⟨k1, v⟩ := kv
    intro pm ws hsome hmem hne
    rcases List.mem_cons.mp hmem with hhead | htail
    · have hk : k = k1 := congrArg Prod.fst hhead
      have hv : CtxVal.str s = v := congrArg Prod.snd hhead
      subst hk
      rw [← hv]
      simp only [externalLoop, hsome]
      rw [if_neg hne]
      exact externalLoop_ws_mono rest pm _
        (List.mem_append_right _ (List.mem_singleton.mpr rfl))
    · cases v with
      | str s1 =>
        cases hl : pmLookup k1 pm with
        | none =>
          have hne1 : k1 ≠ k := by
            intro he
            rw [he, hsome] at hl
            exact Option.noConfusion hl
          simp only [externalLoop, hl]
          exact ih _ _ (by rw [pmLookup_pmInsert_ne s1 pm hne1]; exact hsome) htail hne
        | some u1 =>
          simp only [externalLoop, hl]
          by_cases he : u1 = s1
          · simpa [he] using ih pm ws hsome htail hne
          · simpa [he] using ih pm _ hsome htail hne
      | obj oid opfx =>
        simp only [externalLoop]
        exact ih pm ws hsome htail hne
      | other =>
        simp only [externalLoop]
        exact ih pm ws hsome htail hne

theorem externalLoop_fill {k s : String} (ext : Ctx) :
    (ext.map Prod.fst).Nodup → (k, CtxVal.str s) ∈ ext → ∀ pm ws,
    pmLookup k pm = none → pmLookup k (externalLoop ext pm ws).1 = some s := by
  induction ext with
  | nil =>
    intro _ hmem
    simp at hmem
  | cons kv rest ih =>
    obtain ⟨k1, v⟩ := kv
    intro hnd hmem pm ws hnone
    have hnd2 : k1 ∉ rest.map Prod.fst ∧ (rest.map Prod.fst).Nodup := by
      simpa using hnd
    rcases List.mem_cons.mp hmem with hhead | htail
    · have hk : k = k1 := congrArg Prod.fst hhead
      have hv : CtxVal.str s = v := congrArg Prod.snd hhead
      subst hk
      rw [← hv]
      simp only [externalLoop, hnone]
      exact externalLoop_preserve rest _ ws (pmLookup_pmInsert_self k s pm)
    · have hk1 : k1 ≠ k := by
        intro he
        subst he
        exact hnd2.1 (List.mem_map_of_mem Prod.fst htail)
      cases v with
      | str s1 =>
        cases hl : pmLookup k1 pm with
        | none =>
          simp only [externalLoop, hl]
          exact ih hnd2.2 htail _ _ (by rw [pmLookup_pmInsert_ne s1 pm hk1]; exact hnone)
        | some u1 =>
          simp only [externalLoop, hl]
          by_cases he : u1 = s1
          · simpa [he] using ih hnd2.2 htail pm ws hnone
          · simpa [he] using ih hnd2.2 htail pm _ hnone
      | obj oid opfx =>
        simp only [externalLoop]
        exact ih hnd2.2 htail pm ws hnone
      | other =>
        simp only [externalLoop]
        exact ih hnd2.2 htail pm ws hnone

/-- C6: in `get_default_metadata` the built-in (internal) context is read first;
for every key the internal pass bound that the external context also binds to a
different URI string, the internally derived value is kept in the returned
prefix map and a warning naming the key, the kept value and the external value
is emitted; the external pass never overwrites an existing entry and only adds
entries for keys the internal pass left unbound. -/
theorem get_default_metadata_merge (ctx ctx_external : Ctx)
    (hnd : (ctx_external.map Prod.fst).Nodup) :
    (∀ k u s, pmLookup k (internalLoop ctx []) = some u →
      (k, CtxVal.str s) ∈ ctx_external → u ≠ s →
      pmLookup k (get_default_metadata ctx ctx_external).1.prefix_map = some u ∧
        (k, u, s) ∈ (get_default_metadata ctx ctx_external).2) ∧
    (∀ k u, pmLookup k (internalLoop ctx []) = some u →
      pmLookup k (get_default_metadata ctx ctx_external).1.prefix_map = some u) ∧
    (∀ k s, pmLookup k (internalLoop ctx []) = none →
      (k, CtxVal.str s) ∈ ctx_external →
      pmLookup k (get_default_metadata ctx ctx_external).1.prefix_map = some s) := by
  refine ⟨?_, ?_, ?_⟩
  · intro k u s hi he hne
    exact ⟨externalLoop_preserve ctx_external _ [] hi,
      externalLoop_warn ctx_external _ [] hi he hne⟩
  · intro k u hi
    exact externalLoop_preserve ctx_external _ [] hi
  · intro k s hi he
    exact externalLoop_fill ctx_external hnd he _ [] hi

theorem get_default_metadata_merge_witness :
    pmLookup "a" (get_default_metadata
        [("a", CtxVal.str "http://example.org/a1#")]
        [("a", CtxVal.str "http://example.org/a2#"),
         ("b", CtxVal.str "http://example.org/b1#")]).1.prefix_map
      = some "http://example.org/a1#" ∧
    ("a", "http://example.org/a1#", "http://example.org/a2#")
      ∈ (get_default_metadata
        [("a", CtxVal.str "http://example.org/a1#")]
        [("a", CtxVal.str "http://example.org/a2#"),
         ("b", CtxVal.str "http://example.org/b1#")]).2 ∧
    pmLookup "b" (get_default_metadata
        [("a", CtxVal.str "http://example.org/a1#")]
        [("a", CtxVal.str "http://example.org/a2#"),
         ("b", CtxVal.str "http://example.org/b1#")]).1.prefix_map
      = some "http://example.org/b1#" := by
  have h := get_default_metadata_merge
      [("a", CtxVal.str "http://example.org/a1#")]
      [("a", CtxVal.str "http://example.org/a2#"),
       ("b", CtxVal.str "http://example.org/b1#")] (by decide)
  exact ⟨(h.1 "a" "http://example.org/a1#" "http://example.org/a2#"
      (by decide) (by decide) (by decide)).1,
    (h.1 "a" "http://example.org/a1#" "http://example.org/a2#"
      (by decide) (by decide) (by decide)).2,
    h.2.2 "b" "http://example.org/b1#" (by decide) (by decide)⟩

/-- Modelled from the spec: the `Entity` class (imported from
`sssom.sssom_datamodel`, which is outside the visible sources) carries an `id`
identifier; two Entities are equal iff their identifiers are equal (spec
section 3). -/
structure Entity where
  id : String
deriving DecidableEq

/-- The `EntityPair` dataclass from `datamodel_util.py` lines 22-37: a subject
entity and an object entity. -/
structure EntityPair where
  subject_entity : Entity
  object_entity : Entity
deriving DecidableEq

/-- The equality test Python actually uses for `EntityPair`: the class defines
`__hash__` but not `__eq__`, so `@dataclass` (with its default `eq=True`)
generates `__eq__` comparing the field tuple `(subject_entity, object_entity)`
in declaration order. -/
def entityPairEq (p q : EntityPair) : Bool :=
  decide (p.subject_entity = q.subject_entity ∧ p.object_entity = q.object_entity)

/-- Lexicographic code-point comparison of character lists, the semantics of
the `<=` Python applies to the two identifier strings. -/
def charListLe : List Char → List Char → Bool
  | [], _ => true
  | _ :: _, [] => false
  | c1 :: r1, c2 :: r2 => if c1 = c2 then charListLe r1 r2 else decide (c1 < c2)

/-- Python string comparison `a <= b`: lexicographic on code points. -/
def strLe (a b : String) : Bool := charListLe a.data b.data

/-- The tuple that `EntityPair.__hash__` (`datamodel_util.py` lines 32-37)
hashes: the two entity identifiers in canonical (lexicographic) order, so the
hash is insensitive to the subject/object order. -/
def entityPairHashKey (p : EntityPair) : String × String :=
  if strLe p.subject_entity.id p.object_entity.id then
    (p.subject_entity.id, p.object_entity.id)
  else
    (p.object_entity.id, p.subject_entity.id)

/-- C3 evaluated at the failing input: for the entities with ids `A` and `B`,
the pairs `(A, B)` and `(B, A)` hash on the same canonical tuple, yet the
dataclass-generated equality reports them different — contradicting the class's
own docstring, which states that `(e1, e2) == (e2, e1)`. -/
theorem entityPair_swap_eval :
    entityPairHashKey ⟨⟨"A"⟩, ⟨"B"⟩⟩ = entityPairHashKey ⟨⟨"B"⟩, ⟨"A"⟩⟩ ∧
    entityPairEq ⟨⟨"A"⟩, ⟨"B"⟩⟩ ⟨⟨"B"⟩, ⟨"A"⟩⟩ = false := by decide

/-- Transcribed from `tests/test_utils.py` lines 129-136
(`test_clean_prefix_map_not_strict`): the asserted key set of the prefix map of
the table parsed from `test_clean_prefix.tsv`, before cleaning. -/
def testCleanOriginalKeys : List String :=
  ["a", "b", "c", "d", "orcid"] ++ SSSOM_BUILT_IN_PREFIXES

/-- Transcribed from `tests/test_utils.py` lines 137-142
(`test_clean_prefix_map_not_strict`): the asserted key set of the same table's
prefix map after `clean_prefix_map(strict=False)`. -/
def testCleanedKeys : List String :=
  ["a", "b", "c", "d", "orcid", "x1", "y1", "z1"] ++ SSSOM_BUILT_IN_PREFIXES

/-- C4 counterexample: in the repository's own test of non-strict cleaning, the
prefix `x1` is a member of the asserted post-clean key set and is not a member
of the asserted pre-clean key set — so the prefixes `x1`, `y1`, `z1` were not
unused extras of the input map that pruning excludes; they were absent before
the call and present after it. -/
theorem clean_not_strict_cex :
    "x1" ∈ testCleanedKeys ∧ "x1" ∉ testCleanOriginalKeys := by decide

/-- C4 amended: on the table of `test_clean_prefix.tsv`, the pre-clean prefix
map keys are exactly `{a, b, c, d, orcid}` plus the built-ins, and non-strict
cleaning yields exactly those keys plus `{x1, y1, z1}`: the three prefixes are
absent from the original map (they are referenced by rows but undefined) and
non-strict cleaning adds bindings for them instead of excluding them; every
built-in and every original key is retained. -/
theorem clean_not_strict_test_sets :
    testCleanedKeys.toFinset = testCleanOriginalKeys.toFinset ∪ {"x1", "y1", "z1"} ∧
    (∀ k ∈ SSSOM_BUILT_IN_PREFIXES, k ∈ testCleanedKeys) ∧
    "x1" ∉ testCleanOriginalKeys ∧ "y1" ∉ testCleanOriginalKeys ∧
    "z1" ∉ testCleanOriginalKeys := by decide

/-- Modelled from the spec: a row of a mapping table, with the three required
identifier columns and the open set of additional typed fields (spec section 3,
Mapping); a row's identity is its full field tuple. -/
structure Row where
  subject_id : String
  predicate_id : String
  object_id : String
  others : List (String × String)
deriving DecidableEq

/-- The `MappingSetDataFrame` of `datamodel_util.py` lines 12-20: the mapping
rows (`df`), the bound prefix map (`prefixmap`) and the header metadata. -/
structure MappingTable where
  rows : List Row
  prefixmap : PMap
  metadata : List (String × String)
deriving DecidableEq

/-- The prefix component of a compact identifier: the part before the first
colon, or nothing when the string has no colon. -/
def curiePrefixOf (s : String) : Option String :=
  if (':' ∈ s.data) then
    some (String.mk (s.data.takeWhile fun c => decide (c ≠ ':')))
  else none

/-- The three identifier columns of a row. -/
def rowIds (r : Row) : List String := [r.subject_id, r.predicate_id, r.object_id]

/-- Modelled from the spec: `usedPrefixes` scans the identifier-bearing columns
(subject, predicate, object) and returns the prefix components actually
referenced (spec section 4.2). -/
def usedPrefixes (rows : List Row) : List String :=
  (rows.map fun r => (rowIds r).filterMap curiePrefixOf).flatten

/-- Modelled from the spec: `pruneToUsed` (spec section 4.1; its implementation
lives in `sssom/util.py`, which is outside the visible sources).  With
`strict`, a referenced prefix with no definition raises `UndefinedPrefixError`
naming the missing prefixes; otherwise the map is restricted to the used
prefixes union the built-ins.  (The repository's own non-strict test shows the
real `clean_prefix_map` additionally adds bindings for used-but-undefined
prefixes; that divergence is recorded at the C4 theorems and does not touch the
strict path used here.) -/
def pruneToUsed (pm : PMap) (used : List String) (strict : Bool) :
    Except (List String) PMap :=
  let missing := (used.filter fun p => decide (pmLookup p pm = none)).dedup
  if strict && !missing.isEmpty then Except.error missing
  else Except.ok (pm.filter fun kv =>
    decide (kv.1 ∈ used) || decide (kv.1 ∈ SSSOM_BUILT_IN_PREFIXES))

/-- Modelled from the spec: `cleanPrefixMap(strict)` prunes the table's bound
prefix map to the prefixes its identifier columns reference; when the strict
check fails, the error propagates as an exception and the table — rows, prefix
map and metadata — is left untouched (spec sections 4.3 and 7).  The first
component is the table as the caller sees it after the call; the second is the
raised error, when one was raised. -/
def cleanPrefixMapRun (t : MappingTable) (strict : Bool) :
    MappingTable × Option (List String) :=
  match pruneToUsed t.prefixmap (usedPrefixes t.rows) strict with
  | Except.error missing => (t, some missing)
  | Except.ok pm2 => ({ t with prefixmap := pm2 }, none)

/-- Modelled from the spec: `removeMappings` removes from this table every row
whose full field tuple is identical to a row present in `other`, and does not
alter `other` (spec section 4.3). -/
def remove_mappings (t other : MappingTable) : MappingTable :=
  { t with rows := t.rows.filter fun r => !(decide (r ∈ other.rows)) }

/-- C5: calling the strict clean on a table whose identifier columns reference a
prefix absent from its bound prefix map raises the error, the error names only
prefixes that are indeed referenced and undefined (and at least one), and the
table — prefix map and rows alike — is returned completely unchanged. -/
theorem clean_strict_atomic (t : MappingTable)
    (h : ∃ p ∈ usedPrefixes t.rows, pmLookup p t.prefixmap = none) :
    ∃ missing, cleanPrefixMapRun t true = (t, some missing) ∧ missing ≠ [] ∧
      ∀ p ∈ missing, p ∈ usedPrefixes t.rows ∧ pmLookup p t.prefixmap = none := by
  obtain ⟨p, hp, hnone⟩ := h
  have hpm : p ∈ ((usedPrefixes t.rows).filter fun q =>
      decide (pmLookup q t.prefixmap = none)).dedup :=
    List.mem_dedup.mpr (List.mem_filter.mpr ⟨hp, by simpa using hnone⟩)
  have hne : ((usedPrefixes t.rows).filter fun q =>
      decide (pmLookup q t.prefixmap = none)).dedup ≠ [] := by
    intro hnil
    rw [hnil] at hpm
    simp at hpm
  refine ⟨_, ?_, hne, ?_⟩
  · have hcond : (true && !((usedPrefixes t.rows).filter fun q =>
        decide (pmLookup q t.prefixmap = none)).dedup.isEmpty) = true := by
      simpa [List.isEmpty_iff] using hne
    simp only [cleanPrefixMapRun, pruneToUsed, hcond, if_true]
  · intro q hq
    have hq2 := List.mem_filter.mp (List.mem_dedup.mp hq)
    exact ⟨hq2.1, by simpa using hq2.2⟩

theorem clean_strict_atomic_witness :
    (∃ p ∈ usedPrefixes [(⟨"x:1", "p:q", "y:1", []⟩ : Row)], pmLookup p [] = none) ∧
    ∃ missing,
      cleanPrefixMapRun ⟨[⟨"x:1", "p:q", "y:1", []⟩], [], []⟩ true
        = (⟨[⟨"x:1", "p:q", "y:1", []⟩], [], []⟩, some missing) ∧ missing ≠ [] ∧
      ∀ p ∈ missing, p ∈ usedPrefixes [(⟨"x:1", "p:q", "y:1", []⟩ : Row)] ∧
        pmLookup p [] = none :=
  ⟨⟨"x", by decide, by decide⟩,
   clean_strict_atomic ⟨[⟨"x:1", "p:q", "y:1", []⟩], [], []⟩ ⟨"x", by decide, by decide⟩⟩

/-- A concrete mapping row used in the subtraction scenarios. -/
def rowXY : Row := ⟨"x:1", "skos:exactMatch", "y:1", []⟩

/-- A second, distinct concrete mapping row. -/
def rowZW : Row := ⟨"z:1", "skos:exactMatch", "w:1", []⟩

/-- C8 counterexample: when the receiver holds duplicate rows, row-granularity
set difference is not cardinality subtraction.  Every row of the one-row table
occurs in the two-row table holding that row twice, yet removing leaves 0 rows,
not 2 - 1. -/
theorem remove_mappings_count_cex :
    (∀ r ∈ [rowXY], r ∈ [rowXY, rowXY]) ∧
    (remove_mappings ⟨[rowXY, rowXY], [], []⟩ ⟨[rowXY], [], []⟩).rows.length ≠ 2 - 1 := by
  decide

theorem length_filter_not {α : Type} (l : List α) (p : α → Bool) :
    (l.filter fun x => !(p x)).length = l.length - (l.filter p).length := by
  induction l with
  | nil => simp
  | cons a t ih =>
    have hle : (t.filter p).length ≤ t.length := List.length_filter_le _ _
    cases h : p a with
    | true => simp [List.filter_cons, h, ih]
    | false =>
      simp [List.filter_cons, h, ih]
      omega

theorem filter_mem_length {α : Type} [DecidableEq α] (l b : List α)
    (hl : l.Nodup) (hb : b.Nodup) (hsub : ∀ x ∈ b, x ∈ l) :
    (l.filter fun x => decide (x ∈ b)).length = b.length := by
  have hnf : (l.filter fun x => decide (x ∈ b)).Nodup := hl.filter _
  have hset : (l.filter fun x => decide (x ∈ b)).toFinset = b.toFinset := by
    ext x
    simp only [List.mem_toFinset, List.mem_filter, decide_eq_true_eq]
    exact ⟨fun h => h.2, fun h => ⟨hsub x h, h⟩⟩
  calc (l.filter fun x => decide (x ∈ b)).length
      = (l.filter fun x => decide (x ∈ b)).toFinset.card :=
        (List.toFinset_card_of_nodup hnf).symm
    _ = b.toFinset.card := by rw [hset]
    _ = b.length := List.toFinset_card_of_nodup hb

/-- C8 amended: `remove_mappings` keeps exactly the receiver rows whose full
field tuple does not occur in the other table, and when additionally the
receiver's rows are pairwise distinct, the other table's rows are pairwise
distinct, and every row of the other table occurs in the receiver, the result
has exactly `len(A) - len(B)` rows; the other table is not altered (the
operation reads it only). -/
theorem remove_mappings_row_difference (A B : MappingTable)
    (hA : A.rows.Nodup) (hB : B.rows.Nodup) (hsub : ∀ r ∈ B.rows, r ∈ A.rows) :
    (remove_mappings A B).rows.length = A.rows.length - B.rows.length ∧
    ∀ r, r ∈ (remove_mappings A B).rows ↔ r ∈ A.rows ∧ r ∉ B.rows := by
  constructor
  · show (A.rows.filter fun r => !(decide (r ∈ B.rows))).length = _
    rw [length_filter_not, filter_mem_length A.rows B.rows hA hB hsub]
  · intro r
    show r ∈ A.rows.filter _ ↔ _
    simp [List.mem_filter]

theorem remove_mappings_row_difference_witness :
    ([rowXY, rowZW].Nodup ∧ [rowXY].Nodup ∧ ∀ r ∈ [rowXY], r ∈ [rowXY, rowZW]) ∧
    (remove_mappings ⟨[rowXY, rowZW], [], []⟩ ⟨[rowXY], [], []⟩).rows.length = 2 - 1 :=
  ⟨⟨by decide, by decide, by decide⟩,
   (remove_mappings_row_difference ⟨[rowXY, rowZW], [], []⟩ ⟨[rowXY], [], []⟩
     (by decide) (by decide) (by decide)).1⟩
